import Mathlib

/-!
N-Queens visualizer: the two search engines.

Shallow embedding of the backtracking engines of `script.js` (two-dimensional
board of `'.'` / `'Q'` cells, enumerates every solution) and `simple.js`
(one column slot per row, `-1` meaning unassigned, boolean result), together
with a reference enumeration of column sequences against which both are
compared.  Rendering, DOM updates and delays do not touch the engine state and
are left out; each `await` only marks a point where another handler may run.
-/

namespace NQueens

/-! ## Reference: column sequences -/

/-- A queen put in the row after the rows of `p`, in column `c`, shares no column
and no diagonal with the queen of row `i` in column `p[i]`, for every row of `p`. -/
def safeAt (p : List Nat) (c : Nat) : Bool :=
  (List.range p.length).all fun i =>
    match p[i]? with
    | some ci => ci != c && (ci + (p.length - i) != c) && (c + (p.length - i) != ci)
    | none => true

/-- All completions of the column sequence `p` by `k` further rows, columns tried in
ascending order, each new column safe with respect to the rows before it. -/
def extend (N : Nat) : Nat → List Nat → List (List Nat)
  | 0, p => [p]
  | k + 1, p => (List.range N).flatMap fun c => if safeAt p c then extend N k (p ++ [c]) else []

/-- Column sequences of the full boards found from the empty board. -/
def placements (N : Nat) : List (List Nat) := extend N N []

/-- The `(row, col)` pairs tested while completing `p` by `k` further rows. -/
def testedFrom (N : Nat) : Nat → List Nat → List (Nat × Nat)
  | 0, _ => []
  | k + 1, p => (List.range N).flatMap fun c =>
      (p.length, c) :: (if safeAt p c then testedFrom N k (p ++ [c]) else [])

/-- No two rows of `q` hold queens in the same column or on a common diagonal. -/
def Consistent (q : List Nat) : Prop :=
  ∀ i j a b : Nat, i < j → q[i]? = some a → q[j]? = some b →
    a ≠ b ∧ a + (j - i) ≠ b ∧ b + (j - i) ≠ a

/-- A placement of `N` mutually non-attacking queens on an `N × N` board, given by the
column of the queen of each row. -/
def Valid (N : Nat) (q : List Nat) : Prop :=
  q.length = N ∧ (∀ c ∈ q, c < N) ∧
    ∀ i j a b : Nat, i ≠ j → q[i]? = some a → q[j]? = some b → a ≠ b ∧ Nat.dist a b ≠ Nat.dist i j

/-- Non-attacking placements as functions from rows to columns. -/
def NonAttacking (N : Nat) (f : Fin N → Fin N) : Prop :=
  ∀ i j : Fin N, i ≠ j → f i ≠ f j ∧ Nat.dist (f i) (f j) ≠ Nat.dist i j

/-! ## `script.js` -/

/-- Engine state of `script.js`: the fields the search reads or writes (`speed`, the
button state and the DOM are left out; `isPaused` is given by the pause schedule, see
`pauseCheck`).  `tested`, `pauseChecks` and `polls` are bookkeeping added to the model:
the `(row, col)` pairs on which `isSafe` was evaluated, the number of executions of the
pause check, and the number of 100 ms polls spent waiting. -/
structure Visualizer where
  N : Nat
  board : List (List Char)
  solutions : List (List (List Char))
  attempts : Nat
  currentRow : Nat
  tested : List (Nat × Nat)
  pauseChecks : Nat
  polls : Nat
deriving DecidableEq, Repr

/-- The test `board[i][j] === 'Q'`; a cell outside the board holds no queen. -/
def isQueen (b : List (List Char)) (i j : Nat) : Bool :=
  match b[i]? with
  | some r => r[j]? == some 'Q'
  | none => false

/-- The assignment `board[i][j] = v` on a cell of the board (`solve` writes only cells
with `i, j < N`). -/
def setCell (b : List (List Char)) (i j : Nat) (v : Char) : List (List Char) :=
  match b[i]? with
  | some r => b.set i (r.set j v)
  | none => b

/-- Upper-left diagonal loop of `isSafe`: starts at `(row - 1, col - 1)` and walks up
while both indices are non-negative. -/
def upperLeft (b : List (List Char)) : Nat → Nat → Bool
  | i + 1, j + 1 => if isQueen b i j then false else upperLeft b i j
  | _, _ => true

/-- Upper-right diagonal loop of `isSafe`: starts at `(row - 1, col + 1)` and walks up
while the row is non-negative and the column is below `N`. -/
def upperRight (b : List (List Char)) (N : Nat) : Nat → Nat → Bool
  | i + 1, j =>
    if j + 1 < N then (if isQueen b i (j + 1) then false else upperRight b N i (j + 1))
    else true
  | 0, _ => true

/-- `isSafe(row, col)` of `script.js`: column loop, then the two diagonal loops. -/
def isSafe (b : List (List Char)) (N row col : Nat) : Bool :=
  if (List.range row).any (fun i => isQueen b i col) then false
  else if !upperLeft b row col then false
  else if !upperRight b N row col then false
  else true

/-- `waitForResume`: polls every 100 ms until `isPaused` is observed clear; the argument
is the number of polls at which the flag is still set. -/
def waitForResume : Nat → Visualizer → Visualizer
  | 0, s => s
  | n + 1, s => waitForResume n { s with polls := s.polls + 1 }

/-- The pause check at the head of each column iteration:
`if (this.isPaused) await this.waitForResume()`.  `sched k` is the number of polls for
which `isPaused` stays set at the `k`-th execution of the check (`0`: the flag is clear
and the search goes on at once). -/
def pauseCheck (sched : Nat → Nat) (s : Visualizer) : Visualizer :=
  let k := s.pauseChecks
  let s := { s with pauseChecks := k + 1 }
  if 0 < sched k then waitForResume (sched k) s else s

/-- The column loop of `solve(row)` over the columns still to try; `rec` is the
recursive call `solve(row + 1)`. -/
def solveCols (sched : Nat → Nat) (rec : Visualizer → Option Visualizer) (row : Nat) :
    List Nat → Visualizer → Option Visualizer
  | [], s => some s
  | col :: cols, s =>
    let s := pauseCheck sched s
    let s := { s with attempts := s.attempts + 1 }
    -- `isSafe(row, col)` is evaluated next: record the pair
    let s := { s with tested := s.tested ++ [(row, col)] }
    if isSafe s.board s.N row col then
      match rec { s with board := setCell s.board row col 'Q' } with
      | none => none
      | some s1 => solveCols sched rec row cols { s1 with board := setCell s1.board row col '.' }
    else solveCols sched rec row cols s

/-- `solve(row)` of `script.js`; `none` when the recursion budget is used up. -/
def solve (sched : Nat → Nat) : Nat → Nat → Visualizer → Option Visualizer
  | 0, _, _ => none
  | fuel + 1, row, s =>
    if row = s.N then some { s with solutions := s.solutions ++ [s.board] }
    else solveCols sched (solve sched fuel (row + 1)) row (List.range s.N)
      { s with currentRow := row }

/-- `solveNQueens` of `script.js`: fresh all-`'.'` board, then `solve(0)`. -/
def solveNQueens (sched : Nat → Nat) (s : Visualizer) : Option Visualizer :=
  solve sched (s.N + 1) 0 { s with board := List.replicate s.N (List.replicate s.N '.') }

/-- State after the constructor and `initializeBoard` with board size `N`. -/
def initial (N : Nat) : Visualizer :=
  { N := N, board := List.replicate N (List.replicate N '.'), solutions := [], attempts := 0,
    currentRow := 0, tested := [], pauseChecks := 0, polls := 0 }

/-- `startVisualization` from a state that is not running: counters and solutions are
cleared, then `solveNQueens` runs. -/
def startVisualization (sched : Nat → Nat) (s : Visualizer) : Option Visualizer :=
  solveNQueens sched { s with solutions := [], attempts := 0, currentRow := 0, tested := [] }

/-- A schedule in which `isPaused` is never set. -/
def neverPaused : Nat → Nat := fun _ => 0

/-- The board holding, for each row `i` of `p`, a queen in column `p[i]`. -/
def boardOf (N : Nat) (p : List Nat) : List (List Char) :=
  (List.range N).map fun i => (List.range N).map fun j => if p[i]? = some j then 'Q' else '.'

/-- The column-assignment sequence of a board: per row, the column of its queen. -/
def colSeq (b : List (List Char)) : List Nat := b.map fun r => r.indexOf 'Q'

/-- State `t` continues state `s` of one run: same size and board, `sols` appended to the
solutions, `ts` appended to the tested pairs, one attempt counted per tested pair. -/
def Advances (s t : Visualizer) (sols : List (List (List Char))) (ts : List (Nat × Nat)) : Prop :=
  t.N = s.N ∧ t.board = s.board ∧ t.solutions = s.solutions ++ sols ∧
    t.attempts = s.attempts + ts.length ∧ t.tested = s.tested ++ ts

/-! ## `simple.js` -/

/-- Engine state of `simple.js`: the fields the search reads or writes (`speed`,
`timeoutId` and the DOM are left out).  `attemptLog` is bookkeeping added to the model:
at each `attemptCount++` it records the row and column of the attempt, the board and the
`currentRow` field.  The search writes `board[row]` only for `row < boardSize`, inside a
board set up by `reset()`, where the assignment is `List.set`. -/
structure Simple where
  boardSize : Nat
  board : List Int
  solutions : List (List Int)
  attemptCount : Nat
  currentRow : Nat
  isRunning : Bool
  isPaused : Bool
  attemptLog : List (Nat × Nat × List Int × Nat)
deriving DecidableEq, Repr

namespace Simple

/-- `isSafe(row, col)` of `simple.js`; a slot outside the array compares unequal. -/
def isSafe (board : List Int) (row : Nat) (col : Int) : Bool :=
  !(List.range row).any fun i =>
    match board[i]? with
    | some v => v == col || (v - col).natAbs == ((i : Int) - (row : Int)).natAbs
    | none => false

/-- `stop()`. -/
def stop (s : Simple) : Simple := { s with isRunning := false, isPaused := false }

/-- `reset()`. -/
def reset (s : Simple) : Simple :=
  { stop s with
    board := List.replicate s.boardSize (-1), solutions := [], attemptCount := 0,
    currentRow := 0, attemptLog := [] }

/-- `foundSolution()`: push a copy of the board. -/
def foundSolution (s : Simple) : Simple := { s with solutions := s.solutions ++ [s.board] }

/-- Code of `solve(row)` after `await this.solve(row + 1)` has produced `found`:
return `true`, or un-assign the row and go on with the rest of the column loop. -/
def afterChild (rest : Simple → Option (Bool × Simple)) (row : Nat) (found : Bool)
    (s : Simple) : Option (Bool × Simple) :=
  if found then some (true, s) else rest { s with board := s.board.set row (-1) }

/-- Code of `solve(row)` after the `await this.delay(this.speed)` that follows a
placement: call `solve(row + 1)`, then `afterChild`. -/
def afterPlaced (rec rest : Simple → Option (Bool × Simple)) (row : Nat) (s : Simple) :
    Option (Bool × Simple) :=
  match rec s with
  | none => none
  | some (found, s1) => afterChild rest row found s1

/-- The column loop of `solve(row)` over the columns still to try; `rec` is the
recursive call `solve(row + 1)`. -/
def colLoop (rec : Simple → Option (Bool × Simple)) (row : Nat) :
    List Nat → Simple → Option (Bool × Simple)
  | [], s => some (false, s)
  | col :: cols, s =>
    if !s.isRunning || s.isPaused then some (false, s)
    else
      let s := { s with attemptCount := s.attemptCount + 1,
                        attemptLog := s.attemptLog ++ [(row, col, s.board, s.currentRow)] }
      if isSafe s.board row col then
        afterPlaced rec (colLoop rec row cols) row { s with board := s.board.set row col }
      else colLoop rec row cols s

/-- `solve(row)` of `simple.js`; `none` when the recursion budget is used up. -/
def solve : Nat → Nat → Simple → Option (Bool × Simple)
  | 0, _, _ => none
  | fuel + 1, row, s =>
    if !s.isRunning || s.isPaused then some (false, s)
    else if row = s.boardSize then some (true, foundSolution s)
    else colLoop (solve fuel (row + 1)) row (List.range s.boardSize) { s with currentRow := row }

/-- `solveNQueens()` of `simple.js`. -/
def solveNQueens (s : Simple) : Option (Bool × Simple) := solve (s.boardSize + 1) 0 s

/-- `start()` of `simple.js`. -/
def start (s : Simple) : Option Simple :=
  if s.isRunning then some s
  else
    match solveNQueens { s with isRunning := true, isPaused := false } with
    | none => none
    | some (_, s1) => some { s1 with isRunning := false }

/-- State after the constructor, a selection of board size `n` and `reset()`. -/
def ready (n : Nat) : Simple :=
  reset { boardSize := n, board := [], solutions := [], attemptCount := 0, currentRow := 0,
          isRunning := false, isPaused := false, attemptLog := [] }

/-- An activation of `solve(row)` suspended at one of its two delays; `cols` are the
columns the loop has still to try after the current one. -/
inductive Delayed where
  /-- At `await this.delay(this.speed)`, the queen of `row` just placed. -/
  | placed (row : Nat) (cols : List Nat)
  /-- At `await this.delay(this.speed / 2)`, the column just rejected. -/
  | rejected (row : Nat) (cols : List Nat)
deriving DecidableEq, Repr

/-- Row of a delayed activation. -/
def Delayed.row : Delayed → Nat
  | .placed r _ => r
  | .rejected r _ => r

/-- The rest of an activation suspended at a delay, run from state `s`. -/
def resumeDelayed (fuel : Nat) : Delayed → Simple → Option (Bool × Simple)
  | .placed row cols, s =>
    afterPlaced (solve fuel (row + 1)) (colLoop (solve fuel (row + 1)) row cols) row s
  | .rejected row cols, s => colLoop (solve fuel (row + 1)) row cols s

/-- The rest of the activations suspended at `await this.solve(row + 1)`, innermost first,
each given as its row and the columns it has still to try: every activation receives the
result of the one it awaits and hands its own result to the next. -/
def resumeAwaiting (fuel : Nat) : List (Nat × List Nat) → Bool → Simple → Option (Bool × Simple)
  | [], found, s => some (found, s)
  | (row, cols) :: outer, found, s =>
    match afterChild (colLoop (solve fuel (row + 1)) row cols) row found s with
    | none => none
    | some (r, s1) => resumeAwaiting fuel outer r s1

/-- The rest of a suspended run: the activation at a delay, then those awaiting it. -/
def resumeRun (fuel : Nat) (d : Delayed) (outer : List (Nat × List Nat)) (s : Simple) :
    Option (Bool × Simple) :=
  match resumeDelayed fuel d s with
  | none => none
  | some (r, s1) => resumeAwaiting fuel outer r s1

/-- A state of the run for board size 4, suspended at the delay that follows the
placement of the queen of row 1 in column 2 (queen of row 0 in column 0): four attempts
made so far. -/
def midRun4 : Simple :=
  { boardSize := 4, board := [0, 2, -1, -1], solutions := [], attemptCount := 4,
    currentRow := 1, isRunning := true, isPaused := false,
    attemptLog := [(0, 0, [-1, -1, -1, -1], 0), (1, 0, [0, -1, -1, -1], 1),
      (1, 1, [0, -1, -1, -1], 1), (1, 2, [0, -1, -1, -1], 1)] }

/-- The slots of a column sequence as `simple.js` stores them. -/
def slots (N : Nat) (p : List Nat) : List Int :=
  p.map Int.ofNat ++ List.replicate (N - p.length) (-1)

/-- A logged attempt made with the rows of some column sequence `p` assigned and no
other: its row is the row after `p`, which is at most the `currentRow` field. -/
def Attempted (N : Nat) (e : Nat × Nat × List Int × Nat) : Prop :=
  ∃ p : List Nat, e.1 = p.length ∧ p.length < N ∧ e.2.1 < N ∧ e.2.2.1 = slots N p ∧
    (∀ a ∈ p, a < N) ∧ p.length ≤ e.2.2.2

/-- Outcome `(r, t)` of a search from state `s` whose completions, in order, are `E`:
the first completion is stored and left on the board, or nothing changes. -/
def Outcome (N row : Nat) (s : Simple) (E : List (List Nat)) (r : Bool) (t : Simple) : Prop :=
  t.boardSize = s.boardSize ∧ t.isRunning = true ∧ t.isPaused = false ∧
    (∃ L, t.attemptLog = s.attemptLog ++ L ∧ t.attemptCount = s.attemptCount + L.length ∧
      ∀ e ∈ L, Attempted N e) ∧
    match E.head? with
    | none => r = false ∧ t.board = s.board ∧ t.solutions = s.solutions ∧ row ≤ t.currentRow
    | some q => r = true ∧ t.board = slots N q ∧ t.solutions = s.solutions ++ [slots N q]

end Simple

/-! ## The reference enumeration -/

theorem safeAt_iff (p : List Nat) (c : Nat) :
    safeAt p c = true ↔
      ∀ i a : Nat, p[i]? = some a → a ≠ c ∧ a + (p.length - i) ≠ c ∧ c + (p.length - i) ≠ a := by
  unfold safeAt
  rw [List.all_eq_true]
  constructor
  · intro h i a hia
    have hi : i < p.length := (List.getElem?_eq_some_iff.mp hia).1
    have := h i (List.mem_range.mpr hi)
    rw [hia] at this
    simpa [and_assoc] using this
  · intro h i hi
    have hi' : i < p.length := List.mem_range.mp hi
    have hia : p[i]? = some p[i] := List.getElem?_eq_getElem hi'
    rw [hia]
    simpa [and_assoc] using h i _ hia

theorem consistent_append_singleton (p : List Nat) (c : Nat) :
    Consistent (p ++ [c]) ↔ Consistent p ∧ safeAt p c = true := by
  rw [safeAt_iff]
  constructor
  · intro h
    refine ⟨?_, ?_⟩
    · intro i j a b hij ha hb
      have hj : j < p.length := (List.getElem?_eq_some_iff.mp hb).1
      exact h i j a b hij (by rw [List.getElem?_append_left (by omega)]; exact ha)
        (by rw [List.getElem?_append_left hj]; exact hb)
    · intro i a ha
      have hi : i < p.length := (List.getElem?_eq_some_iff.mp ha).1
      exact h i p.length a c hi (by rw [List.getElem?_append_left hi]; exact ha)
        (by simp)
  · rintro ⟨hp, hs⟩ i j a b hij ha hb
    have hj : j < (p ++ [c]).length := (List.getElem?_eq_some_iff.mp hb).1
    simp only [List.length_append, List.length_singleton] at hj
    have hi : i < p.length := by omega
    rw [List.getElem?_append_left hi] at ha
    by_cases hjp : j < p.length
    · rw [List.getElem?_append_left hjp] at hb
      exact hp i j a b hij ha hb
    · have hjeq : j = p.length := by omega
      subst hjeq
      simp at hb
      subst hb
      exact hs i a ha

theorem isPrefix_of_mem_extend (N : Nat) :
    ∀ (k : Nat) (p q : List Nat), q ∈ extend N k p → p <+: q ∧ q.length = p.length + k := by
  intro k
  induction k with
  | zero =>
    intro p q h
    simp [extend] at h
    subst h
    simp
  | succ k ih =>
    intro p q h
    simp only [extend, List.mem_flatMap, List.mem_range] at h
    obtain ⟨c, _, hq⟩ := h
    split at hq
    · obtain ⟨h1, h2⟩ := ih _ _ hq
      refine ⟨(List.prefix_append p [c]).trans h1, ?_⟩
      simp at h2
      omega
    · simp at hq

theorem getElem?_append_cons_length (p : List Nat) (c : Nat) (t : List Nat) :
    (p ++ c :: t)[p.length]? = some c := by
  rw [List.getElem?_append_right (Nat.le_refl _)]
  simp

theorem consistent_of_initial {p q : List Nat} (h : p <+: q) (hq : Consistent q) :
    Consistent p := by
  obtain ⟨t, rfl⟩ := h
  intro i j a b hij ha hb
  have hj : j < p.length := (List.getElem?_eq_some_iff.mp hb).1
  exact hq i j a b hij (by rw [List.getElem?_append_left (by omega)]; exact ha)
    (by rw [List.getElem?_append_left hj]; exact hb)

theorem mem_extend (N : Nat) :
    ∀ (k : Nat) (p q : List Nat), Consistent p →
      (q ∈ extend N k p ↔
        p <+: q ∧ q.length = p.length + k ∧
          (∀ i c : Nat, p.length ≤ i → q[i]? = some c → c < N) ∧ Consistent q) := by
  intro k
  induction k with
  | zero =>
    intro p q hp
    simp only [extend, List.mem_singleton, Nat.add_zero]
    constructor
    · rintro rfl
      refine ⟨List.prefix_refl _, rfl, ?_, hp⟩
      intro i c hi hc
      have := (List.getElem?_eq_some_iff.mp hc).1
      omega
    · rintro ⟨h1, h2, -, -⟩
      exact (h1.eq_of_length h2.symm).symm
  | succ k ih =>
    intro p q hp
    simp only [extend, List.mem_flatMap, List.mem_range]
    constructor
    · rintro ⟨c, hc, hq⟩
      split at hq
      · rename_i hs
        have hpc : Consistent (p ++ [c]) := (consistent_append_singleton p c).mpr ⟨hp, hs⟩
        obtain ⟨h1, h2, h3, h4⟩ := (ih _ q hpc).mp hq
        refine ⟨(List.prefix_append p [c]).trans h1, by simp at h2; omega, ?_, h4⟩
        intro i d hi hd
        by_cases hip : i = p.length
        · subst hip
          obtain ⟨t, rfl⟩ := h1
          rw [List.append_assoc, List.singleton_append, getElem?_append_cons_length] at hd
          cases hd
          exact hc
        · exact h3 i d (by simp; omega) hd
      · simp at hq
    · rintro ⟨⟨t, rfl⟩, h2, h3, h4⟩
      cases t with
      | nil => simp at h2
      | cons c t =>
        have hcN : c < N := h3 p.length c (Nat.le_refl _) (getElem?_append_cons_length p c t)
        have hpc : Consistent (p ++ [c]) :=
          consistent_of_initial ⟨t, by simp⟩ h4
        have hs : safeAt p c = true := ((consistent_append_singleton p c).mp hpc).2
        refine ⟨c, hcN, ?_⟩
        rw [if_pos hs]
        refine (ih _ _ hpc).mpr ⟨⟨t, by simp⟩, by simp at h2 ⊢; omega, ?_, h4⟩
        intro i d hi hd
        exact h3 i d (by simp at hi; omega) hd

theorem lex_append_cons (p : List Nat) (a b : Nat) (t u : List Nat) (h : a < b) :
    List.Lex (· < ·) (p ++ a :: t) (p ++ b :: u) := by
  induction p with
  | nil => exact List.Lex.rel h
  | cons x p ih => exact List.Lex.cons ih

theorem pairwise_extend (N : Nat) :
    ∀ (k : Nat) (p : List Nat), (extend N k p).Pairwise (List.Lex (· < ·)) := by
  intro k
  induction k with
  | zero => intro p; simp [extend]
  | succ k ih =>
    intro p
    rw [extend, List.pairwise_flatMap]
    refine ⟨?_, ?_⟩
    · intro c _
      split
      · exact ih _
      · exact List.Pairwise.nil
    · refine (List.pairwise_lt_range N).imp ?_
      intro a b hab x hx y hy
      split at hx
      · split at hy
        · obtain ⟨⟨t, rfl⟩, -⟩ := isPrefix_of_mem_extend N k _ _ hx
          obtain ⟨⟨u, rfl⟩, -⟩ := isPrefix_of_mem_extend N k _ _ hy
          simpa using lex_append_cons p a b t u hab
        · simp at hy
      · simp at hx

theorem lex_irrefl (x : List Nat) : ¬ List.Lex (· < ·) x x := by
  induction x with
  | nil => intro h; cases h
  | cons a x ih =>
    intro h
    cases h with
    | cons h => exact ih h
    | rel h => exact Nat.lt_irrefl _ h

theorem nodup_extend (N k : Nat) (p : List Nat) : (extend N k p).Nodup :=
  (pairwise_extend N k p).imp fun {a b} h hab => by subst hab; exact lex_irrefl a h

theorem consistent_nil : Consistent [] := by
  intro i j a b _ ha
  simp at ha

theorem valid_iff (N : Nat) (q : List Nat) :
    Valid N q ↔ q.length = N ∧ (∀ c ∈ q, c < N) ∧ Consistent q := by
  unfold Valid Consistent
  refine and_congr_right fun _ => and_congr_right fun _ => ?_
  constructor
  · intro h i j a b hij ha hb
    have := h i j a b (by omega) ha hb
    simp only [Nat.dist] at this
    omega
  · intro h i j a b hij ha hb
    simp only [Nat.dist]
    rcases Nat.lt_or_gt_of_ne hij with hlt | hgt
    · have := h i j a b hlt ha hb
      omega
    · have := h j i b a hgt hb ha
      omega

theorem mem_placements (N : Nat) (q : List Nat) : q ∈ placements N ↔ Valid N q := by
  rw [placements, mem_extend N N [] q consistent_nil, valid_iff]
  simp only [List.nil_prefix, List.length_nil, Nat.zero_add, Nat.zero_le, true_and,
    forall_const]
  refine and_congr_right fun _ => and_congr_left fun _ => ?_
  constructor
  · intro h c hc
    obtain ⟨i, hi, rfl⟩ := List.getElem_of_mem hc
    exact h i _ (List.getElem?_eq_getElem hi)
  · intro h i c hc
    exact h c (List.getElem?_mem hc)

theorem getElem?_ofFn_val {N : Nat} (f : Fin N → Fin N) (i a : Nat) :
    (List.ofFn fun k => (f k : Nat))[i]? = some a ↔ ∃ h : i < N, (f ⟨i, h⟩ : Nat) = a := by
  rw [List.getElem?_ofFn, List.ofFnNthVal]
  split <;> simp_all

theorem valid_ofFn {N : Nat} (f : Fin N → Fin N) :
    Valid N (List.ofFn fun k => (f k : Nat)) ↔ NonAttacking N f := by
  unfold Valid NonAttacking
  constructor
  · rintro ⟨-, -, h⟩ i j hij
    have := h i j (f i) (f j) (fun e => hij (Fin.ext e))
      ((getElem?_ofFn_val f _ _).mpr ⟨i.2, rfl⟩) ((getElem?_ofFn_val f _ _).mpr ⟨j.2, rfl⟩)
    exact ⟨fun e => this.1 (congrArg Fin.val e), this.2⟩
  · intro h
    refine ⟨List.length_ofFn _, ?_, ?_⟩
    · intro c hc
      rw [List.mem_ofFn] at hc
      obtain ⟨k, rfl⟩ := hc
      exact (f k).2
    · intro i j a b hij ha hb
      obtain ⟨hi, rfl⟩ := (getElem?_ofFn_val f _ _).mp ha
      obtain ⟨hj, rfl⟩ := (getElem?_ofFn_val f _ _).mp hb
      have := h ⟨i, hi⟩ ⟨j, hj⟩ (fun e => hij (congrArg Fin.val e))
      exact ⟨fun e => this.1 (Fin.ext e), this.2⟩

theorem exists_ofFn_of_valid {N : Nat} {q : List Nat} (h : Valid N q) :
    ∃ f : Fin N → Fin N, (List.ofFn fun k => (f k : Nat)) = q := by
  obtain ⟨hlen, hb, -⟩ := h
  subst hlen
  exact ⟨fun k => ⟨q[(k : Nat)], hb _ (List.getElem_mem _)⟩, List.ofFn_getElem q⟩

theorem length_placements_eq_card (N : Nat) :
    (placements N).length = Nat.card { f : Fin N → Fin N // NonAttacking N f } := by
  classical
  have hnd : (placements N).Nodup := nodup_extend N N []
  have hinj : Function.Injective (fun f : Fin N → Fin N => List.ofFn fun k => (f k : Nat)) :=
    fun f g h => funext fun k => Fin.ext (congrFun (List.ofFn_injective h) k)
  rw [Nat.card_eq_fintype_card, Fintype.card_subtype, ← List.toFinset_card_of_nodup hnd,
    ← Finset.card_image_of_injective (Finset.filter (fun f => NonAttacking N f) Finset.univ) hinj]
  congr 1
  ext q
  simp only [List.mem_toFinset, Finset.mem_image, Finset.mem_filter, Finset.mem_univ, true_and]
  rw [mem_placements]
  constructor
  · intro h
    obtain ⟨f, rfl⟩ := exists_ofFn_of_valid h
    exact ⟨f, (valid_ofFn f).mp h, rfl⟩
  · rintro ⟨f, hf, rfl⟩
    exact (valid_ofFn f).mpr hf

/-! ## `script.js`: the board and `isSafe` -/

theorem length_boardOf (N : Nat) (p : List Nat) : (boardOf N p).length = N := by
  simp [boardOf]

theorem getElem?_boardOf (N : Nat) (p : List Nat) (i : Nat) (hi : i < N) :
    (boardOf N p)[i]? =
      some ((List.range N).map fun j => if p[i]? = some j then 'Q' else '.') := by
  simp [boardOf, List.getElem?_map, List.getElem?_range hi]

theorem isQueen_boardOf (N : Nat) (p : List Nat) (i j : Nat) :
    isQueen (boardOf N p) i j = true ↔ i < N ∧ j < N ∧ p[i]? = some j := by
  unfold isQueen
  by_cases hi : i < N
  · rw [getElem?_boardOf N p i hi]
    by_cases hj : j < N
    · simp [List.getElem?_map, List.getElem?_range hj, hi, hj]
    · have : ((List.range N).map fun j => if p[i]? = some j then 'Q' else '.')[j]? = none := by
        simp; omega
      simp [this, hj]
  · have : (boardOf N p)[i]? = none := by
      rw [List.getElem?_eq_none_iff, length_boardOf]; omega
    simp [this, hi]

theorem getElem?_append_singleton_ne (p : List Nat) (c i : Nat) (h : i ≠ p.length) :
    (p ++ [c])[i]? = p[i]? := by
  rcases Nat.lt_or_gt_of_ne h with h1 | h1
  · exact List.getElem?_append_left h1
  · rw [List.getElem?_eq_none_iff.mpr (by simp; omega), List.getElem?_eq_none_iff.mpr (by omega)]

theorem map_range_set (N c : Nat) (f g : Nat → Char) (v : Char)
    (hfg : ∀ j : Nat, j ≠ c → f j = g j) (hv : g c = v) :
    ((List.range N).map f).set c v = (List.range N).map g := by
  apply List.ext_getElem (by simp)
  intro j h1 h2
  rw [List.getElem_set]
  split
  · rename_i h; subst h; simp [hv]
  · rename_i h; simp [hfg j (Ne.symm h)]

theorem setCell_boardOf (N : Nat) (p q : List Nat) (c : Nat) (v : Char) (k : Nat) (hk : k < N)
    (hne : ∀ i : Nat, i ≠ k → p[i]? = q[i]?)
    (hrow : ∀ j : Nat, j ≠ c → (p[k]? = some j ↔ q[k]? = some j))
    (hv : (if q[k]? = some c then 'Q' else '.') = v) :
    setCell (boardOf N p) k c v = boardOf N q := by
  unfold setCell
  rw [getElem?_boardOf N p _ hk]
  apply List.ext_getElem?
  intro i
  by_cases hi : i < N
  · rw [getElem?_boardOf _ _ _ hi, List.getElem?_set]
    by_cases hki : k = i
    · subst hki
      simp only [if_true, length_boardOf, hk, Option.some.injEq]
      refine map_range_set N c _ _ v ?_ hv
      intro j hj
      simp only [hrow j hj]
    · rw [if_neg hki, getElem?_boardOf _ _ _ hi, hne i (Ne.symm hki)]
  · rw [List.getElem?_eq_none_iff.mpr (by simp [length_boardOf]; omega),
      List.getElem?_eq_none_iff.mpr (by simp [length_boardOf]; omega)]

theorem setCell_boardOf_place (N : Nat) (p : List Nat) (c : Nat) (hp : p.length < N) :
    setCell (boardOf N p) p.length c 'Q' = boardOf N (p ++ [c]) := by
  refine setCell_boardOf N p (p ++ [c]) c 'Q' p.length hp ?_ ?_ ?_
  · intro i hi
    exact (getElem?_append_singleton_ne p c i hi).symm
  · intro j hj
    simp [Ne.symm hj]
  · simp

theorem setCell_boardOf_remove (N : Nat) (p : List Nat) (c : Nat) (hp : p.length < N) :
    setCell (boardOf N (p ++ [c])) p.length c '.' = boardOf N p := by
  refine setCell_boardOf N (p ++ [c]) p c '.' p.length hp ?_ ?_ ?_
  · intro i hi
    exact getElem?_append_singleton_ne p c i hi
  · intro j hj
    simp [Ne.symm hj]
  · simp

theorem upperLeft_eq_true (b : List (List Char)) :
    ∀ r c : Nat, upperLeft b r c = true ↔
      ∀ d : Nat, d < r → d < c → isQueen b (r - 1 - d) (c - 1 - d) = false := by
  intro r
  induction r with
  | zero => intro c; simp [upperLeft]
  | succ r ih =>
    intro c
    cases c with
    | zero => simp [upperLeft]
    | succ c =>
      rw [upperLeft]
      constructor
      · intro h d hd hdc
        split at h
        · simp at h
        · rename_i hq
          cases d with
          | zero => simpa using hq
          | succ d =>
            have := (ih c).mp h d (by omega) (by omega)
            have e1 : r + 1 - 1 - (d + 1) = r - 1 - d := by omega
            have e2 : c + 1 - 1 - (d + 1) = c - 1 - d := by omega
            rw [e1, e2]; exact this
      · intro h
        have h0 := h 0 (by omega) (by omega)
        simp at h0
        rw [if_neg (by simp [h0])]
        refine (ih c).mpr ?_
        intro d hd hdc
        have := h (d + 1) (by omega) (by omega)
        have e1 : r + 1 - 1 - (d + 1) = r - 1 - d := by omega
        have e2 : c + 1 - 1 - (d + 1) = c - 1 - d := by omega
        rw [e1, e2] at this; exact this

theorem upperRight_eq_true (b : List (List Char)) (N : Nat) :
    ∀ r c : Nat, upperRight b N r c = true ↔
      ∀ d : Nat, d < r → c + 1 + d < N → isQueen b (r - 1 - d) (c + 1 + d) = false := by
  intro r
  induction r with
  | zero => intro c; simp [upperRight]
  | succ r ih =>
    intro c
    rw [upperRight]
    constructor
    · intro h d hd hdc
      rw [if_pos (by omega)] at h
      split at h
      · simp at h
      · rename_i hq
        cases d with
        | zero => simpa using hq
        | succ d =>
          have := (ih (c + 1)).mp h d (by omega) (by omega)
          have e1 : r + 1 - 1 - (d + 1) = r - 1 - d := by omega
          have e2 : c + 1 + (d + 1) = c + 1 + 1 + d := by omega
          rw [e1, e2]; exact this
    · intro h
      split
      · rename_i hcN
        have h0 := h 0 (by omega) (by omega)
        simp at h0
        rw [if_neg (by simp [h0])]
        refine (ih (c + 1)).mpr ?_
        intro d hd hdc
        have := h (d + 1) (by omega) (by omega)
        have e1 : r + 1 - 1 - (d + 1) = r - 1 - d := by omega
        have e2 : c + 1 + (d + 1) = c + 1 + 1 + d := by omega
        rw [e1, e2] at this; exact this
      · rfl

theorem isSafe_eq_true (b : List (List Char)) (N r c : Nat) :
    isSafe b N r c = true ↔
      (∀ i : Nat, i < r → isQueen b i c = false) ∧ upperLeft b r c = true ∧
        upperRight b N r c = true := by
  unfold isSafe
  by_cases h1 : (List.range r).any (fun i => isQueen b i c) = true
  · rw [if_pos h1]
    simp only [List.any_eq_true, List.mem_range] at h1
    obtain ⟨i, hi, hq⟩ := h1
    constructor
    · intro h; cases h
    · rintro ⟨h, -, -⟩
      rw [h i hi] at hq
      cases hq
  · rw [if_neg h1]
    simp only [List.any_eq_true, List.mem_range, not_exists, not_and, Bool.not_eq_true] at h1
    cases hl : upperLeft b r c <;> cases hr : upperRight b N r c
    · simp
    · simp
    · simp
    · simpa using h1

theorem isSafe_boardOf (N : Nat) (p : List Nat) (c : Nat) (hlen : p.length ≤ N)
    (hp : ∀ a ∈ p, a < N) (hc : c < N) : isSafe (boardOf N p) N p.length c = safeAt p c := by
  rw [Bool.eq_iff_iff, isSafe_eq_true, upperLeft_eq_true, upperRight_eq_true, safeAt_iff]
  constructor
  · rintro ⟨h1, h2, h3⟩ i a hia
    have hi : i < p.length := (List.getElem?_eq_some_iff.mp hia).1
    have ha : a < N := hp a (List.getElem?_mem hia)
    refine ⟨?_, ?_, ?_⟩
    · rintro rfl
      have := h1 i hi
      rw [(isQueen_boardOf N p i a).mpr ⟨by omega, ha, hia⟩] at this
      cases this
    · intro e
      have := h2 (p.length - i - 1) (by omega) (by omega)
      have e1 : p.length - 1 - (p.length - i - 1) = i := by omega
      have e2 : c - 1 - (p.length - i - 1) = a := by omega
      rw [e1, e2, (isQueen_boardOf N p i a).mpr ⟨by omega, ha, hia⟩] at this
      cases this
    · intro e
      have := h3 (p.length - i - 1) (by omega) (by omega)
      have e1 : p.length - 1 - (p.length - i - 1) = i := by omega
      have e2 : c + 1 + (p.length - i - 1) = a := by omega
      rw [e1, e2, (isQueen_boardOf N p i a).mpr ⟨by omega, ha, hia⟩] at this
      cases this
  · intro h
    refine ⟨?_, ?_, ?_⟩
    · intro i hi
      rw [Bool.eq_false_iff]
      intro hq
      obtain ⟨-, -, hq⟩ := (isQueen_boardOf N p i c).mp hq
      exact (h i c hq).1 rfl
    · intro d hd hdc
      rw [Bool.eq_false_iff]
      intro hq
      obtain ⟨-, -, hq⟩ := (isQueen_boardOf N p _ _).mp hq
      have := (h _ _ hq).2.1
      omega
    · intro d hd hdc
      rw [Bool.eq_false_iff]
      intro hq
      obtain ⟨-, -, hq⟩ := (isQueen_boardOf N p _ _).mp hq
      have := (h _ _ hq).2.2
      omega

/-! ## `script.js`: the search -/

theorem waitForResume_fields (n : Nat) :
    ∀ s : Visualizer, (waitForResume n s).N = s.N ∧ (waitForResume n s).board = s.board ∧
      (waitForResume n s).solutions = s.solutions ∧ (waitForResume n s).attempts = s.attempts ∧
      (waitForResume n s).tested = s.tested := by
  induction n with
  | zero => intro s; simp [waitForResume]
  | succ n ih =>
    intro s
    rw [waitForResume]
    obtain ⟨h1, h2, h3, h4, h5⟩ := ih { s with polls := s.polls + 1 }
    exact ⟨h1, h2, h3, h4, h5⟩

theorem pauseCheck_fields (sched : Nat → Nat) (s : Visualizer) :
    (pauseCheck sched s).N = s.N ∧ (pauseCheck sched s).board = s.board ∧
      (pauseCheck sched s).solutions = s.solutions ∧
      (pauseCheck sched s).attempts = s.attempts ∧ (pauseCheck sched s).tested = s.tested := by
  unfold pauseCheck
  simp only
  split
  · exact waitForResume_fields _ _
  · exact ⟨rfl, rfl, rfl, rfl, rfl⟩

theorem solveCols_spec (sched : Nat → Nat) (N k : Nat) (p : List Nat) (hpN : p.length < N)
    (hp : ∀ a ∈ p, a < N) (rec : Visualizer → Option Visualizer)
    (hrec : ∀ (c : Nat) (s : Visualizer), c < N → s.N = N → s.board = boardOf N (p ++ [c]) →
      ∃ t, rec s = some t ∧
        Advances s t ((extend N k (p ++ [c])).map (boardOf N)) (testedFrom N k (p ++ [c]))) :
    ∀ (cols : List Nat), (∀ c ∈ cols, c < N) → ∀ s : Visualizer, s.N = N →
      s.board = boardOf N p →
      ∃ t, solveCols sched rec p.length cols s = some t ∧
        Advances s t
          ((cols.flatMap fun c => if safeAt p c then extend N k (p ++ [c]) else []).map
            (boardOf N))
          (cols.flatMap fun c =>
            (p.length, c) :: (if safeAt p c then testedFrom N k (p ++ [c]) else [])) := by
  intro cols
  induction cols with
  | nil =>
    intro _ s _ _
    exact ⟨s, rfl, by simp [Advances]⟩
  | cons c cols ih =>
    intro hcols s hsN hsb
    have hc : c < N := hcols c (List.mem_cons_self _ _)
    have hcols' : ∀ c ∈ cols, c < N := fun d hd => hcols d (List.mem_cons_of_mem _ hd)
    obtain ⟨w1, w2, w3, w4, w5⟩ := pauseCheck_fields sched s
    rw [solveCols]
    generalize pauseCheck sched s = w at w1 w2 w3 w4 w5 ⊢
    rw [hsN] at w1
    rw [hsb] at w2
    simp only [w1, w2, isSafe_boardOf N p c (Nat.le_of_lt hpN) hp hc]
    cases hs : safeAt p c
    · simp only [Bool.false_eq_true, if_false]
      obtain ⟨t, ht, a1, a2, a3, a4, a5⟩ := ih hcols'
        { w with attempts := w.attempts + 1, tested := w.tested ++ [(p.length, c)] } w1 w2
      simp only [w1, w2] at ht
      refine ⟨t, ht, ?_⟩
      simp only at a1 a2 a3 a4 a5
      refine ⟨by rw [a1, w1, hsN], by rw [a2, w2, hsb], ?_, ?_, ?_⟩
      · rw [a3, w3]; simp [hs]
      · rw [a4, w4]; simp [hs]; omega
      · rw [a5, w5]; simp [hs]
    · simp only [if_true]
      rw [setCell_boardOf_place N p c hpN]
      obtain ⟨u, hu, b1, b2, b3, b4, b5⟩ := hrec c
        { w with attempts := w.attempts + 1, tested := w.tested ++ [(p.length, c)],
                 board := boardOf N (p ++ [c]) } hc w1 rfl
      simp only at b1 b2 b3 b4 b5
      simp only [w1] at hu
      rw [hu]
      simp only
      rw [b2, setCell_boardOf_remove N p c hpN]
      obtain ⟨t, ht, a1, a2, a3, a4, a5⟩ := ih hcols' { u with board := boardOf N p }
        (by simp [b1, w1]) rfl
      refine ⟨t, ht, ?_⟩
      simp only at a1 a2 a3 a4 a5
      refine ⟨by rw [a1, b1, w1, hsN], by rw [a2, hsb], ?_, ?_, ?_⟩
      · rw [a3, b3, w3]; simp [hs]
      · rw [a4, b4, w4]; simp [hs]; omega
      · rw [a5, b5, w5]; simp [hs]

theorem solve_spec (sched : Nat → Nat) (N : Nat) :
    ∀ (k : Nat) (p : List Nat) (fuel : Nat) (s : Visualizer), p.length + k = N → k < fuel →
      (∀ a ∈ p, a < N) → s.N = N → s.board = boardOf N p →
      ∃ t, solve sched fuel p.length s = some t ∧
        Advances s t ((extend N k p).map (boardOf N)) (testedFrom N k p) := by
  intro k
  induction k with
  | zero =>
    intro p fuel s hlen hfuel hp hsN hsb
    obtain ⟨f, rfl⟩ : ∃ f, fuel = f + 1 := ⟨fuel - 1, by omega⟩
    rw [solve, if_pos (by omega)]
    exact ⟨_, rfl, by simp [Advances, extend, testedFrom, hsb]⟩
  | succ k ih =>
    intro p fuel s hlen hfuel hp hsN hsb
    obtain ⟨f, rfl⟩ : ∃ f, fuel = f + 1 := ⟨fuel - 1, by omega⟩
    subst hsN
    rw [solve, if_neg (by omega)]
    have hrec : ∀ (c : Nat) (u : Visualizer), c < s.N → u.N = s.N →
        u.board = boardOf s.N (p ++ [c]) →
        ∃ t, solve sched f (p.length + 1) u = some t ∧
          Advances u t ((extend s.N k (p ++ [c])).map (boardOf s.N))
            (testedFrom s.N k (p ++ [c])) := by
      intro c u hc hsN hsb
      have := ih (p ++ [c]) f u (by simp; omega) (by omega)
        (by
          intro a ha
          rcases List.mem_append.mp ha with h | h
          · exact hp a h
          · simp at h; omega) hsN hsb
      simpa using this
    obtain ⟨t, ht, a1, a2, a3, a4, a5⟩ :=
      solveCols_spec sched s.N k p (by omega) hp _ hrec (List.range s.N)
        (fun c hc => List.mem_range.mp hc) { s with currentRow := p.length } rfl hsb
    exact ⟨t, ht, a1, a2, by simpa [extend] using a3, by simpa [testedFrom] using a4,
      by simpa [testedFrom] using a5⟩

theorem boardOf_nil (N : Nat) : boardOf N [] = List.replicate N (List.replicate N '.') := by
  simp [boardOf]

theorem solveNQueens_spec (sched : Nat → Nat) (s : Visualizer) :
    ∃ t, solveNQueens sched s = some t ∧ t.N = s.N ∧
      t.solutions = s.solutions ++ (placements s.N).map (boardOf s.N) ∧
      t.attempts = s.attempts + (testedFrom s.N s.N []).length ∧
      t.tested = s.tested ++ testedFrom s.N s.N [] := by
  obtain ⟨t, ht, a1, -, a3, a4, a5⟩ := solve_spec sched s.N s.N [] (s.N + 1)
    { s with board := List.replicate s.N (List.replicate s.N '.') } (by simp) (by omega)
    (by simp) rfl (boardOf_nil s.N).symm
  exact ⟨t, ht, a1, a3, a4, a5⟩

theorem startVisualization_spec (sched : Nat → Nat) (s : Visualizer) :
    ∃ t, startVisualization sched s = some t ∧ t.N = s.N ∧
      t.solutions = (placements s.N).map (boardOf s.N) ∧
      t.attempts = (testedFrom s.N s.N []).length ∧ t.tested = testedFrom s.N s.N [] := by
  obtain ⟨t, ht, a1, a3, a4, a5⟩ := solveNQueens_spec sched
    { s with solutions := [], attempts := 0, currentRow := 0, tested := [] }
  exact ⟨t, ht, a1, by simpa using a3, by simpa using a4, by simpa using a5⟩

theorem queen_ite_iff (P : Prop) [Decidable P] : (if P then 'Q' else '.') = 'Q' ↔ P := by
  by_cases h : P
  · simp [h]
  · simp only [if_neg h, h, iff_false]
    decide

theorem indexOf_row (N c : Nat) (f : Nat → Char) (hc : c < N)
    (hf : ∀ j : Nat, f j = 'Q' ↔ j = c) : ((List.range N).map f).indexOf 'Q' = c := by
  unfold List.indexOf
  rw [List.findIdx_eq (by simpa using hc)]
  refine ⟨by simp [(hf c).mpr rfl], ?_⟩
  intro j hj
  simp only [List.getElem_map, List.getElem_range, beq_eq_false_iff_ne, ne_eq]
  intro h
  have := (hf j).mp h
  omega

theorem count_row (N c : Nat) (f : Nat → Char) (hc : c < N)
    (hf : ∀ j : Nat, f j = 'Q' ↔ j = c) : ((List.range N).map f).count 'Q' = 1 := by
  rw [List.count_eq_countP, List.countP_map]
  have : ((fun x => x == 'Q') ∘ f) = (fun j => j == c) := by
    funext j
    simp only [Function.comp]
    rw [Bool.eq_iff_iff]
    simp [hf j]
  rw [this, ← List.count_eq_countP]
  exact List.count_eq_one_of_mem (List.nodup_range N) (List.mem_range.mpr hc)

theorem colSeq_boardOf (N : Nat) (q : List Nat) (hlen : q.length = N) (hq : ∀ c ∈ q, c < N) :
    colSeq (boardOf N q) = q := by
  unfold colSeq boardOf
  apply List.ext_getElem (by simp [hlen])
  intro i h1 h2
  simp only [List.getElem_map, List.getElem_range]
  have hi : q[i]? = some q[i] := List.getElem?_eq_getElem h2
  refine indexOf_row N q[i] _ (hq _ (List.getElem_mem _)) ?_
  intro j
  rw [hi, queen_ite_iff, Option.some.injEq]
  exact eq_comm

theorem colSeq_boardOf_of_valid {N : Nat} {q : List Nat} (h : Valid N q) :
    colSeq (boardOf N q) = q := colSeq_boardOf N q h.1 h.2.1

theorem map_colSeq_placements (N : Nat) :
    ((placements N).map (boardOf N)).map colSeq = placements N := by
  rw [List.map_map]
  conv_rhs => rw [← List.map_id (placements N)]
  apply List.map_congr_left
  intro q hq
  exact colSeq_boardOf_of_valid ((mem_placements N q).mp hq)

theorem nodup_boards (N : Nat) : ((placements N).map (boardOf N)).Nodup := by
  have h : (((placements N).map (boardOf N)).map colSeq).Nodup := by
    rw [map_colSeq_placements]; exact nodup_extend N N []
  exact List.Nodup.of_map _ h

theorem boardOf_row_spec (N : Nat) (q : List Nat) (hq : Valid N q) :
    ∀ r ∈ boardOf N q, r.length = N ∧ r.count 'Q' = 1 := by
  intro r hr
  unfold boardOf at hr
  simp only [List.mem_map, List.mem_range] at hr
  obtain ⟨i, hi, rfl⟩ := hr
  refine ⟨by simp, ?_⟩
  have h2 : i < q.length := by rw [hq.1]; exact hi
  have hiq : q[i]? = some q[i] := List.getElem?_eq_getElem h2
  refine count_row N q[i] _ (hq.2.1 _ (List.getElem_mem _)) ?_
  intro j
  rw [hiq, queen_ite_iff, Option.some.injEq]
  exact eq_comm

theorem boardOf_nonattacking (N : Nat) (q : List Nat) (hq : Valid N q) :
    ∀ i j ci cj : Nat, i ≠ j → isQueen (boardOf N q) i ci = true →
      isQueen (boardOf N q) j cj = true → ci ≠ cj ∧ Nat.dist ci cj ≠ Nat.dist i j := by
  intro i j ci cj hij h1 h2
  exact hq.2.2 i j ci cj hij ((isQueen_boardOf N q i ci).mp h1).2.2
    ((isQueen_boardOf N q j cj).mp h2).2.2

/-! ## `simple.js` -/

namespace Simple

theorem simple_isSafe_eq_true (board : List Int) (row : Nat) (col : Int) :
    isSafe board row col = true ↔
      ∀ (i : Nat) (v : Int), i < row → board[i]? = some v →
        v ≠ col ∧ (v - col).natAbs ≠ ((i : Int) - (row : Int)).natAbs := by
  unfold isSafe
  simp only [Bool.not_eq_true', List.any_eq_false, List.mem_range]
  constructor
  · intro h i v hi hv
    have := h i hi
    rw [hv] at this
    simpa using this
  · intro h i hi
    cases hv : board[i]? with
    | none => simp
    | some v => simpa using h i v hi hv

theorem length_slots (N : Nat) (p : List Nat) (h : p.length ≤ N) : (slots N p).length = N := by
  simp [slots]; omega

theorem getElem?_slots_lt (N : Nat) (p : List Nat) (i a : Nat) (h : p[i]? = some a) :
    (slots N p)[i]? = some (a : Int) := by
  have hi : i < p.length := (List.getElem?_eq_some_iff.mp h).1
  unfold slots
  rw [List.getElem?_append_left (by simpa using hi), List.getElem?_map, h]
  rfl

theorem getElem?_slots_ge (N : Nat) (p : List Nat) (i : Nat) (h1 : p.length ≤ i) (h2 : i < N) :
    (slots N p)[i]? = some (-1) := by
  unfold slots
  rw [List.getElem?_append_right (by simpa using h1), List.getElem?_replicate]
  simp; omega

theorem isSafe_slots (N : Nat) (p : List Nat) (c : Nat) :
    isSafe (slots N p) p.length (c : Int) = safeAt p c := by
  rw [Bool.eq_iff_iff, simple_isSafe_eq_true, safeAt_iff]
  constructor
  · intro h i a hia
    have hi : i < p.length := (List.getElem?_eq_some_iff.mp hia).1
    have := h i a hi (getElem?_slots_lt N p i a hia)
    omega
  · intro h i v hi hv
    have hia : p[i]? = some p[i] := List.getElem?_eq_getElem hi
    rw [getElem?_slots_lt N p i _ hia] at hv
    cases hv
    have := h i _ hia
    omega

theorem set_slots_place (N : Nat) (p : List Nat) (c : Nat) (hp : p.length < N) :
    (slots N p).set p.length (c : Int) = slots N (p ++ [c]) := by
  unfold slots
  obtain ⟨m, hm⟩ : ∃ m, N - p.length = m + 1 := ⟨N - p.length - 1, by omega⟩
  have hm' : N - (p ++ [c]).length = m := by simp; omega
  rw [hm, hm', List.replicate_succ, List.set_append_right _ _ (by simp)]
  simp

theorem set_slots_remove (N : Nat) (p : List Nat) (c : Nat) (hp : p.length < N) :
    (slots N (p ++ [c])).set p.length (-1) = slots N p := by
  unfold slots
  obtain ⟨m, hm⟩ : ∃ m, N - p.length = m + 1 := ⟨N - p.length - 1, by omega⟩
  have hm' : N - (p ++ [c]).length = m := by simp; omega
  rw [hm, hm', List.replicate_succ, List.map_append, List.append_assoc,
    List.set_append_right _ _ (by simp)]
  simp

theorem colLoop_spec (N k : Nat) (p : List Nat) (hpN : p.length < N) (hp : ∀ a ∈ p, a < N)
    (rec : Simple → Option (Bool × Simple))
    (hrec : ∀ (c : Nat) (s : Simple), c < N → s.boardSize = N → s.isRunning = true →
      s.isPaused = false → s.board = slots N (p ++ [c]) →
      ∃ r t, rec s = some (r, t) ∧ Outcome N (p.length + 1) s (extend N k (p ++ [c])) r t) :
    ∀ (cols : List Nat), (∀ c ∈ cols, c < N) → ∀ s : Simple, s.boardSize = N →
      s.isRunning = true → s.isPaused = false → s.board = slots N p →
      p.length ≤ s.currentRow →
      ∃ r t, colLoop rec p.length cols s = some (r, t) ∧
        Outcome N p.length s
          (cols.flatMap fun c => if safeAt p c then extend N k (p ++ [c]) else []) r t := by
  intro cols
  induction cols with
  | nil =>
    intro _ s _ h2 h3 _ h5
    exact ⟨false, s, rfl, rfl, h2, h3, ⟨[], by simp⟩, by simp [h5]⟩
  | cons c cols ih =>
    intro hcols s h1 h2 h3 h4 h5
    have hc : c < N := hcols c (List.mem_cons_self _ _)
    have hcols' : ∀ c ∈ cols, c < N := fun d hd => hcols d (List.mem_cons_of_mem _ hd)
    have hatt : Attempted N (p.length, c, s.board, s.currentRow) :=
      ⟨p, rfl, hpN, hc, h4, hp, h5⟩
    have hcond : (!s.isRunning || s.isPaused) = false := by simp [h2, h3]
    have hsafe : isSafe s.board p.length (c : Int) = safeAt p c := by
      rw [h4]; exact isSafe_slots N p c
    have hset : s.board.set p.length (c : Int) = slots N (p ++ [c]) := by
      rw [h4]; exact set_slots_place N p c hpN
    rw [colLoop, hcond]
    simp only [Bool.false_eq_true, if_false, hsafe, hset]
    cases hs : safeAt p c
    · simp only [Bool.false_eq_true, if_false]
      obtain ⟨r, t, hrt, o1, o2, o3, ⟨L, l1, l2, l3⟩, o5⟩ := ih hcols'
        { s with attemptCount := s.attemptCount + 1,
                 attemptLog := s.attemptLog ++ [(p.length, c, s.board, s.currentRow)] }
        h1 h2 h3 h4 h5
      refine ⟨r, t, hrt, o1, o2, o3, ⟨(p.length, c, s.board, s.currentRow) :: L, ?_, ?_, ?_⟩, ?_⟩
      · rw [l1]; simp
      · rw [l2]; simp; omega
      · intro e he
        rcases List.mem_cons.mp he with rfl | he
        · exact hatt
        · exact l3 e he
      · simpa [hs] using o5
    · simp only [if_true]
      rw [afterPlaced]
      obtain ⟨r, u, hru, p1, p2, p3, ⟨L, l1, l2, l3⟩, p5⟩ := hrec c
        { s with attemptCount := s.attemptCount + 1,
                 attemptLog := s.attemptLog ++ [(p.length, c, s.board, s.currentRow)],
                 board := slots N (p ++ [c]) } hc h1 h2 h3 rfl
      rw [hru]
      simp only at p1 l1 l2 p5 ⊢
      cases hE : extend N k (p ++ [c]) with
      | nil =>
        rw [hE] at p5
        simp only [List.head?_nil] at p5
        obtain ⟨rfl, q2, q3, q4⟩ := p5
        rw [afterChild]
        simp only [Bool.false_eq_true, if_false, q2, set_slots_remove N p c hpN]
        obtain ⟨r, t, hrt, o1, o2, o3, ⟨M, m1, m2, m3⟩, o5⟩ := ih hcols'
          { u with board := slots N p } (by simp [p1, h1]) p2 p3 rfl (by simp; omega)
        simp only at o1 m1 m2 o5
        refine ⟨r, t, hrt, by rw [o1, p1], o2, o3,
          ⟨(p.length, c, s.board, s.currentRow) :: (L ++ M), ?_, ?_, ?_⟩, ?_⟩
        · rw [m1, l1]; simp
        · rw [m2, l2]; simp; omega
        · intro e he
          rcases List.mem_cons.mp he with rfl | he
          · exact hatt
          · rcases List.mem_append.mp he with he | he
            · exact l3 e he
            · exact m3 e he
        · simp only [List.flatMap_cons, hs, if_true, hE, List.nil_append]
          cases hF : (cols.flatMap fun c => if safeAt p c then extend N k (p ++ [c]) else []).head?
            with
          | none =>
            rw [hF] at o5
            simp only at o5 ⊢
            exact ⟨o5.1, by rw [o5.2.1, h4], by rw [o5.2.2.1, q3], o5.2.2.2⟩
          | some q =>
            rw [hF] at o5
            simp only at o5 ⊢
            exact ⟨o5.1, o5.2.1, by rw [o5.2.2, q3]⟩
      | cons q E =>
        rw [hE] at p5
        simp only [List.head?_cons] at p5
        obtain ⟨rfl, q2, q3⟩ := p5
        rw [afterChild]
        simp only [if_true]
        refine ⟨true, u, rfl, p1, p2, p3,
          ⟨(p.length, c, s.board, s.currentRow) :: L, ?_, ?_, ?_⟩, ?_⟩
        · rw [l1]; simp
        · rw [l2]; simp; omega
        · intro e he
          rcases List.mem_cons.mp he with rfl | he
          · exact hatt
          · exact l3 e he
        · simp only [List.flatMap_cons, hs, if_true, hE, List.cons_append, List.head?_cons]
          exact ⟨trivial, q2, q3⟩

theorem simple_solve_spec (N : Nat) :
    ∀ (k : Nat) (p : List Nat) (fuel : Nat) (s : Simple), p.length + k = N → k < fuel →
      (∀ a ∈ p, a < N) → s.boardSize = N → s.isRunning = true → s.isPaused = false →
      s.board = slots N p →
      ∃ r t, solve fuel p.length s = some (r, t) ∧ Outcome N p.length s (extend N k p) r t := by
  intro k
  induction k with
  | zero =>
    intro p fuel s hlen hfuel hp h1 h2 h3 h4
    obtain ⟨f, rfl⟩ : ∃ f, fuel = f + 1 := ⟨fuel - 1, by omega⟩
    have hcond : (!s.isRunning || s.isPaused) = false := by simp [h2, h3]
    rw [solve, hcond]
    simp only [Bool.false_eq_true, if_false]
    rw [if_pos (by omega)]
    exact ⟨true, foundSolution s, rfl, rfl, h2, h3, ⟨[], by simp [foundSolution]⟩,
      by simp [extend, foundSolution, h4]⟩
  | succ k ih =>
    intro p fuel s hlen hfuel hp h1 h2 h3 h4
    obtain ⟨f, rfl⟩ : ∃ f, fuel = f + 1 := ⟨fuel - 1, by omega⟩
    subst h1
    have hcond : (!s.isRunning || s.isPaused) = false := by simp [h2, h3]
    rw [solve, hcond]
    simp only [Bool.false_eq_true, if_false]
    rw [if_neg (by omega)]
    have hrec : ∀ (c : Nat) (u : Simple), c < s.boardSize → u.boardSize = s.boardSize →
        u.isRunning = true → u.isPaused = false → u.board = slots s.boardSize (p ++ [c]) →
        ∃ r t, solve f (p.length + 1) u = some (r, t) ∧
          Outcome s.boardSize (p.length + 1) u (extend s.boardSize k (p ++ [c])) r t := by
      intro c u hc g1 g2 g3 g4
      have := ih (p ++ [c]) f u (by simp; omega) (by omega)
        (by
          intro a ha
          rcases List.mem_append.mp ha with h | h
          · exact hp a h
          · simp at h; omega) g1 g2 g3 g4
      simpa using this
    obtain ⟨r, t, hrt, o⟩ :=
      colLoop_spec s.boardSize k p (by omega) hp _ hrec (List.range s.boardSize)
        (fun c hc => List.mem_range.mp hc) { s with currentRow := p.length } rfl h2 h3 h4
        (Nat.le_refl _)
    refine ⟨r, t, hrt, ?_⟩
    obtain ⟨o1, o2, o3, o4, o5⟩ := o
    exact ⟨o1, o2, o3, o4, by simpa [extend] using o5⟩

theorem slots_nil (N : Nat) : slots N [] = List.replicate N (-1) := by
  simp [slots]

theorem start_ready_spec (N : Nat) :
    ∃ r t, start (ready N) = some { t with isRunning := false } ∧
      Outcome N 0 { ready N with isRunning := true, isPaused := false } (placements N) r t := by
  obtain ⟨r, t, hrt, o⟩ := simple_solve_spec N N [] (N + 1)
    { ready N with isRunning := true, isPaused := false } (by simp) (by omega) (by simp)
    rfl rfl rfl (by simp [ready, reset, stop, slots_nil])
  refine ⟨r, t, ?_, o⟩
  have h0 : (ready N).isRunning = false := rfl
  have h1 : solveNQueens { ready N with isRunning := true, isPaused := false } = some (r, t) :=
    hrt
  rw [start, h0]
  simp only [Bool.false_eq_true, if_false]
  rw [h1]

theorem attempted_spec {N : Nat} {row col : Nat} {board : List Int} {cur : Nat}
    (h : Attempted N (row, col, board, cur)) :
    board.length = N ∧ (∀ i : Nat, i < row → ∃ c : Nat, c < N ∧ board[i]? = some (c : Int)) ∧
      (∀ i : Nat, row ≤ i → i < N → board[i]? = some (-1)) ∧ row < N ∧ col < N ∧ row ≤ cur := by
  obtain ⟨p, h1, h2, h3, h4, h5, h6⟩ := h
  simp only at h1 h2 h3 h4 h5 h6
  subst h1 h4
  refine ⟨length_slots N p (Nat.le_of_lt h2), ?_, ?_, h2, h3, h6⟩
  · intro i hi
    have hia : p[i]? = some p[i] := List.getElem?_eq_getElem hi
    exact ⟨p[i], h5 _ (List.getElem_mem _), getElem?_slots_lt N p i _ hia⟩
  · intro i h1 h2
    exact getElem?_slots_ge N p i h1 h2

theorem solve_stopped (fuel row : Nat) (s : Simple) (h : s.isRunning = false) :
    solve (fuel + 1) row s = some (false, s) := by
  rw [solve]
  simp [h]

theorem colLoop_stopped (rec : Simple → Option (Bool × Simple)) (row : Nat) (cols : List Nat)
    (s : Simple) (h : s.isRunning = false) : colLoop rec row cols s = some (false, s) := by
  cases cols with
  | nil => rfl
  | cons c cols =>
    rw [colLoop]
    simp [h]

theorem set_replicate_self (N row : Nat) :
    (List.replicate N (-1 : Int)).set row (-1) = List.replicate N (-1) := by
  apply List.ext_getElem (by simp)
  intro i h1 h2
  rw [List.getElem_set]
  split <;> simp

theorem unassign_reset (s : Simple) (row : Nat) :
    { reset s with board := (reset s).board.set row (-1) } = reset s := by
  simp [reset, stop, set_replicate_self]

theorem afterChild_reset (rec : Simple → Option (Bool × Simple)) (row : Nat) (cols : List Nat)
    (s : Simple) :
    afterChild (colLoop rec row cols) row false (reset s) = some (false, reset s) := by
  rw [afterChild]
  simp only [Bool.false_eq_true, if_false]
  rw [unassign_reset]
  exact colLoop_stopped _ _ _ _ rfl

theorem resumeDelayed_reset (fuel : Nat) (d : Delayed) (s : Simple) :
    resumeDelayed (fuel + 1) d (reset s) = some (false, reset s) := by
  cases d with
  | placed row cols =>
    rw [resumeDelayed, afterPlaced, solve_stopped fuel (row + 1) (reset s) rfl]
    exact afterChild_reset _ _ _ _
  | rejected row cols =>
    rw [resumeDelayed]
    exact colLoop_stopped _ _ _ _ rfl

theorem resumeAwaiting_reset (fuel : Nat) (s : Simple) :
    ∀ outer : List (Nat × List Nat),
      resumeAwaiting fuel outer false (reset s) = some (false, reset s) := by
  intro outer
  induction outer with
  | nil => rfl
  | cons f outer ih =>
    obtain ⟨row, cols⟩ := f
    rw [resumeAwaiting, afterChild_reset]
    exact ih

/-- The suspended activations of `midRun4`, resumed with no interference, finish the run
for board size 4 exactly as the uninterrupted run does. -/
theorem resumeRun_midRun4 :
    resumeRun 5 (Delayed.placed 1 [3]) [(0, [1, 2, 3])] midRun4 =
      solveNQueens { ready 4 with isRunning := true } := by
  decide!

end Simple

/-! ## Results for `script.js` -/

theorem length_placements_small :
    (placements 1).length = 1 ∧ (placements 2).length = 0 ∧ (placements 3).length = 0 ∧
      (placements 4).length = 2 ∧ (placements 5).length = 10 := by
  refine ⟨?_, ?_, ?_, ?_, ?_⟩ <;> decide!

set_option maxRecDepth 1000000 in
theorem length_extend_eight_0 : (extend 8 7 [0]).length = 4 := by
  decide!
set_option maxRecDepth 1000000 in
theorem length_extend_eight_1 : (extend 8 7 [1]).length = 8 := by
  decide!
set_option maxRecDepth 1000000 in
theorem length_extend_eight_2 : (extend 8 7 [2]).length = 16 := by
  decide!
set_option maxRecDepth 1000000 in
theorem length_extend_eight_3 : (extend 8 7 [3]).length = 18 := by
  decide!
set_option maxRecDepth 1000000 in
theorem length_extend_eight_4 : (extend 8 7 [4]).length = 18 := by
  decide!
set_option maxRecDepth 1000000 in
theorem length_extend_eight_5 : (extend 8 7 [5]).length = 16 := by
  decide!
set_option maxRecDepth 1000000 in
theorem length_extend_eight_6 : (extend 8 7 [6]).length = 8 := by
  decide!
set_option maxRecDepth 1000000 in
theorem length_extend_eight_7 : (extend 8 7 [7]).length = 4 := by
  decide!

theorem extend_nil_succ (N k : Nat) :
    extend N (k + 1) [] = (List.range N).flatMap fun c => extend N k [c] := by
  rw [extend]
  congr 1

theorem length_placements_eight : (placements 8).length = 92 := by
  have hmap : (List.range 8).map (fun c => (extend 8 7 [c]).length) =
      [4, 8, 16, 18, 18, 16, 8, 4] := by
    rw [show List.range 8 = [0, 1, 2, 3, 4, 5, 6, 7] from by decide]
    simp only [List.map_cons, List.map_nil, length_extend_eight_0, length_extend_eight_1,
      length_extend_eight_2, length_extend_eight_3, length_extend_eight_4,
      length_extend_eight_5, length_extend_eight_6, length_extend_eight_7]
  have hlen : (placements 8).length =
      ((List.range 8).map (fun c => (extend 8 7 [c]).length)).sum := by
    rw [placements, extend_nil_succ 8 7, List.length_flatMap]
    rfl
  rw [hlen, hmap]
  rfl

theorem solveNQueens_length (sched : Nat → Nat) (N : Nat) :
    (solveNQueens sched (initial N)).map (fun t => t.solutions.length) =
      some (placements N).length := by
  obtain ⟨t, ht, -, a3, -, -⟩ := solveNQueens_spec sched (initial N)
  rw [ht]
  simp [a3, initial]

theorem mem_boards (N : Nat) (b : List (List Char)) :
    b ∈ (placements N).map (boardOf N) ↔ ∃ q, Valid N q ∧ b = boardOf N q := by
  simp only [List.mem_map, mem_placements]
  constructor
  · rintro ⟨q, hq, rfl⟩; exact ⟨q, hq, rfl⟩
  · rintro ⟨q, hq, rfl⟩; exact ⟨q, hq, rfl⟩

/-- Claim C1. For every board size `N`, `solveNQueens` of `script.js` (never paused, from
the state after `initializeBoard`) returns; its final `solutions` list has as many entries
as there are placements of `N` mutually non-attacking queens, has no repeated entry, and
holds exactly the boards of the valid placements.  The counts for `N = 1, 2, 3, 4, 5, 8`
are `1, 0, 0, 2, 10, 92`. -/
theorem solveNQueens_enumerates_all :
    (∀ N : Nat, ∃ t, solveNQueens neverPaused (initial N) = some t ∧
      t.solutions.length = Nat.card { f : Fin N → Fin N // NonAttacking N f } ∧
      t.solutions.Nodup ∧
      ∀ b, b ∈ t.solutions ↔ ∃ q, Valid N q ∧ b = boardOf N q) ∧
    (solveNQueens neverPaused (initial 1)).map (fun t => t.solutions.length) = some 1 ∧
    (solveNQueens neverPaused (initial 2)).map (fun t => t.solutions.length) = some 0 ∧
    (solveNQueens neverPaused (initial 3)).map (fun t => t.solutions.length) = some 0 ∧
    (solveNQueens neverPaused (initial 4)).map (fun t => t.solutions.length) = some 2 ∧
    (solveNQueens neverPaused (initial 5)).map (fun t => t.solutions.length) = some 10 ∧
    (solveNQueens neverPaused (initial 8)).map (fun t => t.solutions.length) = some 92 := by
  refine ⟨?_, ?_, ?_, ?_, ?_, ?_, ?_⟩
  · intro N
    obtain ⟨t, ht, -, a3, -, -⟩ := solveNQueens_spec neverPaused (initial N)
    have hs : t.solutions = (placements N).map (boardOf N) := by simpa [initial] using a3
    refine ⟨t, ht, ?_, ?_, ?_⟩
    · rw [hs, List.length_map, length_placements_eq_card]
    · rw [hs]; exact nodup_boards N
    · intro b; rw [hs]; exact mem_boards N b
  · rw [solveNQueens_length, length_placements_small.1]
  · rw [solveNQueens_length, length_placements_small.2.1]
  · rw [solveNQueens_length, length_placements_small.2.2.1]
  · rw [solveNQueens_length, length_placements_small.2.2.2.1]
  · rw [solveNQueens_length, length_placements_small.2.2.2.2]
  · rw [solveNQueens_length, length_placements_eight]

/-- Claim C2. For every `N` and every pause schedule, each board in the final `solutions`
list of a run of `script.js` has `N` rows of `N` cells, exactly one `'Q'` in each row, and
for two distinct rows the queen columns differ and the column distance differs from the
row distance. -/
theorem solutions_are_valid_boards (N : Nat) (sched : Nat → Nat) :
    ∃ t, startVisualization sched (initial N) = some t ∧
      ∀ b ∈ t.solutions, b.length = N ∧ (∀ r ∈ b, r.length = N ∧ r.count 'Q' = 1) ∧
        ∀ i j ci cj : Nat, i ≠ j → isQueen b i ci = true → isQueen b j cj = true →
          ci ≠ cj ∧ Nat.dist ci cj ≠ Nat.dist i j := by
  obtain ⟨t, ht, -, a3, -, -⟩ := startVisualization_spec sched (initial N)
  refine ⟨t, ht, ?_⟩
  intro b hb
  rw [a3] at hb
  obtain ⟨q, hq, rfl⟩ := (mem_boards N b).mp hb
  exact ⟨length_boardOf N q, boardOf_row_spec N q hq, boardOf_nonattacking N q hq⟩

/-- Claim C4. For every `N` and every pause schedule, the column-assignment sequences of
the final `solutions` list of a run of `script.js` are in strictly increasing lexicographic
order: each entry is smaller than the next one, and than every later one. -/
theorem solutions_lex_increasing (N : Nat) (sched : Nat → Nat) :
    ∃ t, startVisualization sched (initial N) = some t ∧
      (t.solutions.map colSeq).Chain' (List.Lex (· < ·)) ∧
      (t.solutions.map colSeq).Pairwise (List.Lex (· < ·)) := by
  obtain ⟨t, ht, -, a3, -, -⟩ := startVisualization_spec sched (initial N)
  have hs : t.solutions.map colSeq = placements N := by
    rw [a3]; exact map_colSeq_placements N
  refine ⟨t, ht, ?_, ?_⟩
  · rw [hs]; exact List.Pairwise.chain' (pairwise_extend N N [])
  · rw [hs]; exact pairwise_extend N N []

/-- Claim C6. For every `N` and every schedule of pauses observed at the per-column pause
check of `script.js` (each pause lasting finitely many polls), the run returns with the
same `solutions`, the same `attempts` and the same sequence of tested cells as the run in
which `isPaused` is never set. -/
theorem pause_resume_same_result (N : Nat) (sched : Nat → Nat) :
    ∃ t u, startVisualization sched (initial N) = some t ∧
      startVisualization neverPaused (initial N) = some u ∧
      t.solutions = u.solutions ∧ t.attempts = u.attempts ∧ t.tested = u.tested := by
  obtain ⟨t, ht, -, a3, a4, a5⟩ := startVisualization_spec sched (initial N)
  obtain ⟨u, hu, -, b3, b4, b5⟩ := startVisualization_spec neverPaused (initial N)
  exact ⟨t, u, ht, hu, by rw [a3, b3], by rw [a4, b4], by rw [a5, b5]⟩

/-- Claim C10, as stated, fails: the full uninterrupted run of `script.js` for `N = 4`
does not end with `attempts` equal to `8`. -/
theorem attempts_four_ne_eight :
    (startVisualization neverPaused (initial 4)).map (fun t => t.attempts) ≠ some 8 := by
  decide!

/-- Claim C10, amended. For every start state and pause schedule, a full run of
`script.js` ends with `attempts` equal to the number of `(row, col)` pairs on which
`isSafe` was evaluated, and these pairs depend on `N` alone; for `N = 4` the value
is `60`. -/
theorem attempts_counts_tested :
    (∀ (sched : Nat → Nat) (s : Visualizer), ∃ t, startVisualization sched s = some t ∧
      t.attempts = t.tested.length ∧ t.tested = testedFrom s.N s.N []) ∧
    (startVisualization neverPaused (initial 4)).map (fun t => t.attempts) = some 60 := by
  refine ⟨?_, by decide!⟩
  intro sched s
  obtain ⟨t, ht, -, -, a4, a5⟩ := startVisualization_spec sched s
  exact ⟨t, ht, by rw [a4, a5], a5⟩

/-! ## Results for `simple.js` -/

namespace Simple

/-- Claim C3. `isSafe(row, col)` of `simple.js` returns `false` exactly when some row
`i < row` holds a value `v` with `v = col` or `|v - col| = |i - row|`, and `true`
otherwise; it is a function of the board and leaves it as it is. -/
theorem isSafe_false_iff (board : List Int) (row : Nat) (col : Int) :
    (isSafe board row col = false ↔
      ∃ (i : Nat) (v : Int), i < row ∧ board[i]? = some v ∧
        (v = col ∨ |v - col| = |(i : Int) - (row : Int)|)) ∧
    (isSafe board row col = true ↔
      ¬ ∃ (i : Nat) (v : Int), i < row ∧ board[i]? = some v ∧
        (v = col ∨ |v - col| = |(i : Int) - (row : Int)|)) := by
  have key : isSafe board row col = true ↔
      ¬ ∃ (i : Nat) (v : Int), i < row ∧ board[i]? = some v ∧
        (v = col ∨ |v - col| = |(i : Int) - (row : Int)|) := by
    rw [simple_isSafe_eq_true]
    constructor
    · rintro h ⟨i, v, hi, hv, hc⟩
      have := h i v hi hv
      rcases hc with hc | hc
      · exact this.1 hc
      · rw [Int.abs_eq_natAbs, Int.abs_eq_natAbs] at hc
        exact this.2 (by exact_mod_cast hc)
    · intro h i v hi hv
      refine ⟨fun e => h ⟨i, v, hi, hv, Or.inl e⟩, fun e => h ⟨i, v, hi, hv, Or.inr ?_⟩⟩
      rw [Int.abs_eq_natAbs, Int.abs_eq_natAbs, e]
  refine ⟨?_, key⟩
  rw [← Bool.not_eq_true, key, not_not]

/-- Claim C5, as stated, fails: for `N = 4` the run of `simple.js` from a reset board ends
with one entry in `solutions`, not two, and for `N = 5` with one entry, not ten. -/
theorem simple_run_four_not_all :
    (start (ready 4)).map (fun t => t.solutions) = some [[1, 3, 0, 2]] ∧
    (start (ready 4)).map (fun t => t.solutions.length) ≠ some 2 ∧
    (start (ready 5)).map (fun t => t.solutions.length) ≠ some 10 := by
  decide!

/-- Claim C5, amended. A run of `simple.js` from a reset board stops at the first
solution: for every `N` it returns; when a valid placement exists, `solutions` ends with
exactly one entry, a valid placement that is lexicographically first among all valid
placements, and that placement stays assigned on the board; when none exists, `solutions`
is empty and the board is back to all `-1`.  For `N = 4` and `N = 5` there is one entry. -/
theorem simple_stops_at_first_solution :
    (∀ N : Nat, ∃ t, start (ready N) = some t ∧ t.solutions.length ≤ 1 ∧
      (∀ q, Valid N q → ∃ q0, Valid N q0 ∧ t.solutions = [slots N q0] ∧
        t.board = slots N q0 ∧ (q0 = q ∨ List.Lex (· < ·) q0 q)) ∧
      ((∀ q, ¬ Valid N q) → t.solutions = [] ∧ t.board = List.replicate N (-1))) ∧
    (start (ready 4)).map (fun t => t.solutions.length) = some 1 ∧
    (start (ready 5)).map (fun t => t.solutions.length) = some 1 := by
  refine ⟨?_, by decide!, by decide!⟩
  intro N
  obtain ⟨r, t, ht, -, -, -, -, o5⟩ := start_ready_spec N
  refine ⟨_, ht, ?_⟩
  have hpw := pairwise_extend N N []
  cases hE : placements N with
  | nil =>
    rw [hE] at o5
    simp only [List.head?_nil] at o5
    obtain ⟨-, o2, o3, -⟩ := o5
    refine ⟨by simp [o3, ready, reset], ?_, ?_⟩
    · intro q hq
      have := (mem_placements N q).mpr hq
      rw [hE] at this
      cases this
    · intro _
      exact ⟨by simp [o3, ready, reset], by simp [o2, ready, reset, stop]⟩
  | cons q0 E =>
    rw [hE] at o5
    simp only [List.head?_cons] at o5
    obtain ⟨-, o2, o3⟩ := o5
    have hq0 : Valid N q0 := (mem_placements N q0).mp (by rw [hE]; exact List.mem_cons_self _ _)
    have hsol : t.solutions = [slots N q0] := by simp [o3, ready, reset]
    refine ⟨by simp [hsol], ?_, ?_⟩
    · intro q hq
      refine ⟨q0, hq0, hsol, o2, ?_⟩
      have hm := (mem_placements N q).mpr hq
      rw [hE] at hm
      rcases List.mem_cons.mp hm with rfl | hm
      · exact Or.inl rfl
      · right
        change (extend N N []).Pairwise _ at hpw
        have : (q0 :: E).Pairwise (List.Lex (· < ·)) := by
          have h := hE
          unfold placements at h
          rw [h] at hpw
          exact hpw
        exact (List.pairwise_cons.mp this).1 q hm
    · intro h
      exact absurd hq0 (h q0)

/-- Claim C7. `reset()` of `simple.js`, called on any state `s`, leaves `boardSize` slots
all `-1`, no solutions, `attemptCount` and `currentRow` at `0`, `isRunning` and `isPaused`
false.  From that state every `solve(row)` call and every column-loop iteration returns
`false` with the state unchanged, and so does the whole stack of suspended activations of
the abandoned run (rows below `boardSize`): no attempt is counted, no solution is added
and no row is left assigned. -/
theorem reset_abandons_run (fuel : Nat) (d : Delayed) (outer : List (Nat × List Nat))
    (s : Simple) (_hd : d.row < s.boardSize) (_houter : ∀ f ∈ outer, f.1 < s.boardSize) :
    ((reset s).board = List.replicate s.boardSize (-1) ∧ (reset s).solutions = [] ∧
      (reset s).attemptCount = 0 ∧ (reset s).currentRow = 0 ∧ (reset s).isRunning = false ∧
      (reset s).isPaused = false) ∧
    (∀ row, solve (fuel + 1) row (reset s) = some (false, reset s)) ∧
    (∀ rec row cols, colLoop rec row cols (reset s) = some (false, reset s)) ∧
    resumeRun (fuel + 1) d outer (reset s) = some (false, reset s) := by
  refine ⟨⟨rfl, rfl, rfl, rfl, rfl, rfl⟩, ?_, ?_, ?_⟩
  · intro row
    exact solve_stopped fuel row (reset s) rfl
  · intro rec row cols
    exact colLoop_stopped rec row cols (reset s) rfl
  · rw [resumeRun, resumeDelayed_reset]
    exact resumeAwaiting_reset (fuel + 1) s outer

/-- Instance of `reset_abandons_run`: the run for board size 4 is reset while `solve(1)`
waits at the delay after placing its queen and `solve(0)` awaits it. -/
theorem reset_abandons_run_witness :
    (Delayed.placed 1 [3]).row < midRun4.boardSize ∧
    (∀ f ∈ [((0 : Nat), [1, 2, 3])], f.1 < midRun4.boardSize) ∧
    resumeRun 5 (Delayed.placed 1 [3]) [(0, [1, 2, 3])] (reset midRun4) =
      some (false, reset midRun4) :=
  ⟨by decide, by decide,
    (reset_abandons_run 4 (Delayed.placed 1 [3]) [(0, [1, 2, 3])] midRun4 (by decide)
      (by decide)).2.2.2⟩

/-- Claim C8 fails on the code: `start()` of `simple.js` clears nothing.  For board size 4
the first run from a reset state ends with one solution and 26 attempts; a second
`start()` with no `reset()` in between ends with the same solution stored twice and
52 attempts. -/
theorem second_start_accumulates :
    (start (ready 4)).map (fun t => (t.solutions, t.attemptCount)) =
      some ([[1, 3, 0, 2]], 26) ∧
    ((start (ready 4)).bind start).map (fun t => (t.solutions, t.attemptCount)) =
      some ([[1, 3, 0, 2], [1, 3, 0, 2]], 52) := by
  decide!

/-- Claim C9, as stated, fails: in the run of `simple.js` for board size 4 the ninth
attempt is made at row 1, column 3, on the board `[0, -1, -1, -1]`, while the `currentRow`
field is 2; row 1 is below `currentRow` and unassigned. -/
theorem ninth_attempt_stale_currentRow :
    (start (ready 4)).map (fun t => t.attemptLog[8]?) =
      some (some (1, 3, [0, -1, -1, -1], 2)) := by
  decide!

/-- Claim C9, amended. In a run of `simple.js` from a reset board, the run returns, every
attempt is logged, and at each attempt made by `solve(row)` the board has one slot per
row, the rows `0 .. row - 1` hold a column in `[0, N)`, every row from `row` onward holds
`-1`, and `row` is at most the `currentRow` field. -/
theorem attempts_on_assigned_prefix (N : Nat) :
    ∃ t, start (ready N) = some t ∧ t.attemptLog.length = t.attemptCount ∧
      ∀ (row col : Nat) (board : List Int) (cur : Nat),
        (row, col, board, cur) ∈ t.attemptLog →
        board.length = N ∧
          (∀ i : Nat, i < row → ∃ c : Nat, c < N ∧ board[i]? = some (c : Int)) ∧
          (∀ i : Nat, row ≤ i → i < N → board[i]? = some (-1)) ∧ row ≤ cur := by
  obtain ⟨r, t, ht, -, -, -, ⟨L, l1, l2, l3⟩, -⟩ := start_ready_spec N
  refine ⟨_, ht, ?_, ?_⟩
  · simp [l1, l2, ready, reset]
  · intro row col board cur hmem
    have hL : (row, col, board, cur) ∈ L := by simpa [l1, ready, reset] using hmem
    obtain ⟨h1, h2, h3, -, -, h6⟩ := attempted_spec (l3 _ hL)
    exact ⟨h1, h2, h3, h6⟩

end Simple

end NQueens
